import Mathlib

/-!
Verification of the anchor / interval-multimap / diagnostics layer of a
collaborative text-editor buffer (crates text/src/anchor.rs and
language/src/buffer.rs).

The Rust code is shallowly embedded: machine integers become Nat (no
arithmetic here ever nears the u64/u32 range in a way that overflow is
semantically relevant: full offsets and row/column coordinates only
grow by small additions and are compared), fallible code returns
Except, and structures keep the source field names where Lean permits.

Parts of the repository that the two source files call into but that are
not part of the provided sources (the sum_tree crate, the text core's
snapshot resolution, PointUtf16 arithmetic, clipping) are modelled from
the specification; each such definition carries a doc comment starting
with "Modelled from the spec:".
-/

set_option maxHeartbeats 1000000

/-- Ordering combinator mirroring Rust Ordering::then: keep the first
comparison unless it is Equal, in which case use the second. -/
def othen : Ordering → Ordering → Ordering
  | Ordering.eq, b => b
  | a, _ => a

/-- Comparison of natural numbers mirroring Rust Ord::cmp on unsigned
integers (FullOffset and usize delegate to it). -/
def natCmp (a b : Nat) : Ordering :=
  if a < b then Ordering.lt else if a = b then Ordering.eq else Ordering.gt

/-- Modelled from the spec: the sum_tree crate's Bias enum. Left anchors
stay before insertions at their position, Right anchors move after; the
derived order places Left before Right. -/
inductive MBias where
  | left
  | right
deriving DecidableEq, Repr

/-- Comparison on MBias mirroring the derived Ord of sum_tree::Bias
(declaration order: Left < Right). -/
def biasCmp : MBias → MBias → Ordering
  | MBias.left, MBias.left => Ordering.eq
  | MBias.left, MBias.right => Ordering.lt
  | MBias.right, MBias.left => Ordering.gt
  | MBias.right, MBias.right => Ordering.eq

/-- The Anchor struct from anchor.rs: a full offset, a bias and the
version vector the offset refers to. Version vectors are modelled as
lists of per-replica counters; only their equality is consulted by the
code under study. -/
structure MAnchor where
  fullOffset : Nat
  bias : MBias
  version : List Nat
deriving DecidableEq, Repr

/-- Modelled from the spec: the text core's Snapshot, restricted to the
single capability Anchor::cmp consumes, namely resolving an anchor to a
full offset in the snapshot's coordinate space
(Snapshot::full_offset_for_anchor). -/
structure MSnapshot where
  fullOffsetForAnchor : MAnchor → Nat

/-- Anchor::cmp from anchor.rs lines 86-100: equal anchors short-circuit
to Equal; anchors sharing a version compare by full offset; otherwise
both are resolved against the snapshot; bias breaks ties. The Result
return type of the source is kept as Except. -/
def MAnchor.cmp (a b : MAnchor) (buffer : MSnapshot) : Except String Ordering :=
  if a = b then Except.ok Ordering.eq
  else
    let offsetComparison :=
      if a.version = b.version then natCmp a.fullOffset b.fullOffset
      else natCmp (buffer.fullOffsetForAnchor a) (buffer.fullOffsetForAnchor b)
    Except.ok (othen offsetComparison (biasCmp a.bias b.bias))

/-- Restatement of claim C2 in its own words (spec side of the
refinement): equal anchors give Equal; equal versions compare full
offsets with ties broken by bias, Left before Right; differing versions
resolve both anchors against the snapshot first. -/
def anchorCmpSpec (a b : MAnchor) (s : MSnapshot) : Ordering :=
  if a = b then Ordering.eq
  else
    let x := if a.version = b.version then a.fullOffset else s.fullOffsetForAnchor a
    let y := if a.version = b.version then b.fullOffset else s.fullOffsetForAnchor b
    if x < y then Ordering.lt
    else if y < x then Ordering.gt
    else if a.bias = b.bias then Ordering.eq
    else if a.bias = MBias.left then Ordering.lt
    else Ordering.gt

lemma othen_natCmp_bias (x y : Nat) (p q : MBias) :
    othen (natCmp x y) (biasCmp p q) =
      (if x < y then Ordering.lt
       else if y < x then Ordering.gt
       else if p = q then Ordering.eq
       else if p = MBias.left then Ordering.lt
       else Ordering.gt) := by
  unfold natCmp
  rcases Nat.lt_trichotomy x y with h | h | h
  · simp [h, othen]
  · subst h
    simp [Nat.lt_irrefl, othen]
    cases p <;> cases q <;> simp [biasCmp]
  · have hxy : ¬ x < y := Nat.lt_asymm h
    have hne : ¬ x = y := Nat.ne_of_gt h
    simp [hxy, hne, h, othen]

/-- C2: anchor comparison follows the claimed three-case rule: identical
anchors give Equal; anchors with equal versions compare by full offset
with ties broken by bias (Left before Right); anchors with differing
versions are both resolved against the snapshot first and the resolved
offsets are compared, bias breaking exact ties. -/
theorem c2_anchor_cmp_cases (a b : MAnchor) (s : MSnapshot) :
    MAnchor.cmp a b s = Except.ok (anchorCmpSpec a b s) := by
  unfold MAnchor.cmp anchorCmpSpec
  by_cases hab : a = b
  · simp [hab]
  · by_cases hv : a.version = b.version
    · simp [hab, hv, othen_natCmp_bias]
    · simp [hab, hv, othen_natCmp_bias]

/-- C10: despite its Result return type, Anchor::cmp never returns the
error case: for every pair of anchors and every snapshot the comparison
is a total function producing Ok. -/
theorem c10_anchor_cmp_total (a b : MAnchor) (s : MSnapshot) :
    ∃ o : Ordering, MAnchor.cmp a b s = Except.ok o := by
  unfold MAnchor.cmp
  by_cases hab : a = b
  · exact ⟨Ordering.eq, by simp [hab]⟩
  · refine ⟨othen
      (if a.version = b.version then natCmp a.fullOffset b.fullOffset
       else natCmp (s.fullOffsetForAnchor a) (s.fullOffsetForAnchor b))
      (biasCmp a.bias b.bias), ?_⟩
    simp [hab]

/-- An entry of the AnchorRangeMultimap (AnchorRangeMultimapEntry plus
its FullOffsetRange, anchor.rs lines 49-58): a stored full-offset range
and its value. The field end of the source is named stop, end being a
Lean keyword. -/
structure MEntry (T : Type) where
  start : Nat
  stop : Nat
  value : T
deriving DecidableEq, Repr

/-- AnchorRangeMultimapSummary from anchor.rs lines 60-67. -/
structure MSummary where
  start : Nat
  stop : Nat
  minStart : Nat
  maxEnd : Nat
  count : Nat
deriving DecidableEq, Repr

/-- sum_tree::Item::summary for a multimap entry (anchor.rs lines
485-497): a single-entry summary. -/
def MEntry.summary {T : Type} (e : MEntry T) : MSummary :=
  { start := e.start, stop := e.stop, minStart := e.start, maxEnd := e.stop, count := 1 }

/-- The release-build effect of AnchorRangeMultimapSummary::add_summary
(anchor.rs lines 514-530): min-start and max-end aggregate, start and
stop track the rightmost entry, counts add. -/
def addSummary (a b : MSummary) : MSummary :=
  { start := b.start, stop := b.stop,
    minStart := min a.minStart b.minStart,
    maxEnd := max a.maxEnd b.maxEnd,
    count := a.count + b.count }

/-- The debug-build assertions of add_summary (anchor.rs lines 518-525)
as a boolean check on an adjacent pair of subtree summaries: the left
summary's start must not exceed the right one's, and on equal starts the
left summary's end must be at least the right one's. -/
def addSummaryCheck (a b : MSummary) : Bool :=
  match natCmp a.start b.start with
  | Ordering.gt => false
  | Ordering.eq => !(natCmp a.stop b.stop == Ordering.lt)
  | Ordering.lt => true

/-- Modelled from the spec: the sum_tree crate's balanced summary tree,
reduced to its ordered-fringe-with-aggregated-summaries essence. Any
grouping of the entry sequence into subtrees is admitted; leaves hold
one entry each (the filter cursor of sum_tree consults per-item
summaries at the leaf level, so a single-entry leaf is the faithful
granularity). -/
inductive STree (T : Type) where
  | leaf : MEntry T → STree T
  | node : STree T → STree T → STree T

/-- Aggregate summary of a subtree, folded with addSummary exactly as
sum_tree recomputes node summaries from child summaries. -/
def STree.summaryOf {T : Type} : STree T → MSummary
  | STree.leaf e => e.summary
  | STree.node l r => addSummary l.summaryOf r.summaryOf

/-- The entry sequence stored in a tree, left to right. -/
def STree.fringe {T : Type} : STree T → List (MEntry T)
  | STree.leaf e => [e]
  | STree.node l r => l.fringe ++ r.fringe

/-- Modelled from the spec: resolution of stored full offsets against a
snapshot at or after the multimap's version, one function per endpoint
bias (Anchor::to_full_offset of the text core). The overlap-query
theorem assumes each function is monotone, which is how positions map
through edits: resolution never reorders offsets resolved under one
bias. -/
structure ResolveSnapshot where
  resolveStart : Nat → Nat
  resolveEnd : Nat → Nat

/-- The pruning predicate of AnchorRangeMultimap::intersecting_ranges
(anchor.rs lines 377-393): a subtree survives when the query start is
not past the subtree's resolved max end and the query end is not before
its resolved min start, with inclusive choosing non-strict comparisons. -/
def filterPred (snap : ResolveSnapshot) (qs qe : Nat) (inclusive : Bool)
    (s : MSummary) : Bool :=
  let maxEnd := snap.resolveEnd s.maxEnd
  let startCmp := natCmp qs maxEnd
  let minStart := snap.resolveStart s.minStart
  let endCmp := natCmp qe minStart
  if inclusive then
    !(startCmp == Ordering.gt) && !(endCmp == Ordering.lt)
  else
    (startCmp == Ordering.lt) && (endCmp == Ordering.gt)

/-- Descent of the filter cursor: a subtree whose summary fails the
predicate is pruned wholesale; surviving leaves yield their entry with
the count-dimension index (number of entries anywhere to the left,
pruned or not), exactly the cursor.start() value of the source. -/
def filterTree {T : Type} (p : MSummary → Bool) : STree T → Nat → List (Nat × MEntry T)
  | STree.leaf e, i => if p e.summary then [(i, e)] else []
  | STree.node l r, i =>
    if p (STree.node l r).summaryOf then
      filterTree p l i ++ filterTree p r (i + l.summaryOf.count)
    else []

/-- AnchorRangeMultimap (anchor.rs lines 40-46): the summary tree plus
version and biases. The version and biases are carried for structural
fidelity; resolution against a snapshot is abstracted by
ResolveSnapshot. -/
structure MMultimap (T : Type) where
  tree : Option (STree T)
  version : List Nat
  startBias : MBias
  endBias : MBias

/-- Modelled from the spec: SumTree::from_iter builds a tree whose entry
sequence is exactly the iterated sequence (sum_tree packs items in
order; no sorting happens). -/
def treeOfList {T : Type} : List (MEntry T) → Option (STree T)
  | [] => none
  | [x] => some (STree.leaf x)
  | x :: y :: xs =>
    match treeOfList (y :: xs) with
    | none => some (STree.leaf x)
    | some t => some (STree.node (STree.leaf x) t)

/-- AnchorRangeMultimap::from_full_offset_ranges (anchor.rs lines
423-444): store the given entries, in the given order, under the given
version and biases. -/
def fromFullOffsetRanges {T : Type} (version : List Nat) (startBias endBias : MBias)
    (entries : List (MEntry T)) : MMultimap T :=
  { tree := treeOfList entries, version := version,
    startBias := startBias, endBias := endBias }

/-- The stored entry sequence of a multimap
(AnchorRangeMultimap::full_offset_ranges). -/
def MMultimap.entryList {T : Type} (m : MMultimap T) : List (MEntry T) :=
  match m.tree with
  | none => []
  | some t => t.fringe

/-- AnchorRangeMultimap::intersecting_ranges (anchor.rs lines 357-421):
run the filter cursor over the tree and yield each surviving entry as
(index, resolved range, value). The query range qs..qe is already in
resolved full-offset coordinates, as produced by the to_full_offset
conversions at the top of the source function. -/
def MMultimap.intersectingRanges {T : Type} (m : MMultimap T) (snap : ResolveSnapshot)
    (qs qe : Nat) (inclusive : Bool) : List (Nat × (Nat × Nat) × T) :=
  match m.tree with
  | none => []
  | some t =>
    (filterTree (filterPred snap qs qe inclusive) t 0).map
      (fun x => (x.1, (snap.resolveStart x.2.start, snap.resolveEnd x.2.stop), x.2.value))

/-- Reference overlap test on a single stored entry, in resolved
coordinates: with inclusive semantics endpoint touching counts, without
it the resolved range must properly straddle the query. -/
def overlapsEntry {T : Type} (snap : ResolveSnapshot) (qs qe : Nat) (inclusive : Bool)
    (e : MEntry T) : Bool :=
  if inclusive then
    decide (qs ≤ snap.resolveEnd e.stop) && decide (snap.resolveStart e.start ≤ qe)
  else
    decide (qs < snap.resolveEnd e.stop) && decide (snap.resolveStart e.start < qe)

/-- Pair each list element with its index, starting at i. -/
def withIndices {α : Type} (i : Nat) : List α → List (Nat × α)
  | [] => []
  | x :: xs => (i, x) :: withIndices (i + 1) xs

lemma withIndices_append {α : Type} (xs ys : List α) (i : Nat) :
    withIndices i (xs ++ ys) = withIndices i xs ++ withIndices (i + xs.length) ys := by
  induction xs generalizing i with
  | nil => simp [withIndices]
  | cons x xs ih =>
    simp [withIndices, ih (i + 1)]
    have : i + 1 + xs.length = i + (xs.length + 1) := by omega
    rw [this]

lemma natCmp_eq_gt (a b : Nat) : (natCmp a b == Ordering.gt) = decide (b < a) := by
  unfold natCmp
  rcases Nat.lt_trichotomy a b with h | h | h
  · simp [h, Nat.lt_asymm h]
    rfl
  · subst h
    simp
    rfl
  · have hab : ¬ a < b := Nat.lt_asymm h
    have hne : ¬ a = b := Nat.ne_of_gt h
    simp [hab, hne, h]
    rfl

lemma natCmp_eq_lt (a b : Nat) : (natCmp a b == Ordering.lt) = decide (a < b) := by
  unfold natCmp
  rcases Nat.lt_trichotomy a b with h | h | h
  · simp [h]
    rfl
  · subst h
    simp
    rfl
  · have hab : ¬ a < b := Nat.lt_asymm h
    have hne : ¬ a = b := Nat.ne_of_gt h
    simp [hab, hne, h]
    rfl

lemma filterPred_false_iff (snap : ResolveSnapshot) (qs qe : Nat) (s : MSummary) :
    filterPred snap qs qe false s = true ↔
      (qs < snap.resolveEnd s.maxEnd ∧ snap.resolveStart s.minStart < qe) := by
  simp [filterPred, natCmp_eq_lt, natCmp_eq_gt]

lemma filterPred_true_iff (snap : ResolveSnapshot) (qs qe : Nat) (s : MSummary) :
    filterPred snap qs qe true s = true ↔
      (qs ≤ snap.resolveEnd s.maxEnd ∧ snap.resolveStart s.minStart ≤ qe) := by
  simp [filterPred, natCmp_eq_lt, natCmp_eq_gt, Nat.not_lt]

lemma overlapsEntry_false_iff {T : Type} (snap : ResolveSnapshot) (qs qe : Nat)
    (e : MEntry T) :
    overlapsEntry snap qs qe false e = true ↔
      (qs < snap.resolveEnd e.stop ∧ snap.resolveStart e.start < qe) := by
  simp [overlapsEntry]

lemma overlapsEntry_true_iff {T : Type} (snap : ResolveSnapshot) (qs qe : Nat)
    (e : MEntry T) :
    overlapsEntry snap qs qe true e = true ↔
      (qs ≤ snap.resolveEnd e.stop ∧ snap.resolveStart e.start ≤ qe) := by
  simp [overlapsEntry]

lemma filterPred_leaf {T : Type} (snap : ResolveSnapshot) (qs qe : Nat) (inclusive : Bool)
    (e : MEntry T) :
    filterPred snap qs qe inclusive e.summary = overlapsEntry snap qs qe inclusive e := by
  rw [Bool.eq_iff_iff]
  cases inclusive with
  | false =>
    rw [filterPred_false_iff, overlapsEntry_false_iff]
    simp [MEntry.summary]
  | true =>
    rw [filterPred_true_iff, overlapsEntry_true_iff]
    simp [MEntry.summary]

lemma summary_bounds {T : Type} (t : STree T) :
    ∀ e ∈ t.fringe, t.summaryOf.minStart ≤ e.start ∧ e.stop ≤ t.summaryOf.maxEnd := by
  induction t with
  | leaf x =>
    intro e he
    simp [STree.fringe] at he
    subst he
    simp [STree.summaryOf, MEntry.summary]
  | node l r ihl ihr =>
    intro e he
    simp [STree.fringe] at he
    rcases he with he | he
    · rcases ihl e he with ⟨h1, h2⟩
      constructor
      · exact le_trans (min_le_left _ _) h1
      · exact le_trans h2 (le_max_left _ _)
    · rcases ihr e he with ⟨h1, h2⟩
      constructor
      · exact le_trans (min_le_right _ _) h1
      · exact le_trans h2 (le_max_right _ _)

lemma summary_count {T : Type} (t : STree T) : t.summaryOf.count = t.fringe.length := by
  induction t with
  | leaf x => simp [STree.summaryOf, STree.fringe, MEntry.summary]
  | node l r ihl ihr => simp [STree.summaryOf, STree.fringe, addSummary, ihl, ihr]

lemma prune_sound {T : Type} (snap : ResolveSnapshot)
    (hs : Monotone snap.resolveStart) (he : Monotone snap.resolveEnd)
    (qs qe : Nat) (inclusive : Bool) (t : STree T)
    (hp : filterPred snap qs qe inclusive t.summaryOf = false) :
    ∀ e ∈ t.fringe, overlapsEntry snap qs qe inclusive e = false := by
  intro e hef
  rcases summary_bounds t e hef with ⟨hmin, hmax⟩
  have hminr : snap.resolveStart t.summaryOf.minStart ≤ snap.resolveStart e.start := hs hmin
  have hmaxr : snap.resolveEnd e.stop ≤ snap.resolveEnd t.summaryOf.maxEnd := he hmax
  have hnp : ¬ (filterPred snap qs qe inclusive t.summaryOf = true) := by simp [hp]
  rw [Bool.eq_false_iff, Ne]
  cases inclusive with
  | false =>
    rw [filterPred_false_iff] at hnp
    rw [overlapsEntry_false_iff]
    omega
  | true =>
    rw [filterPred_true_iff] at hnp
    rw [overlapsEntry_true_iff]
    omega

lemma filter_eq_nil_of {α : Type} (p : α → Bool) (l : List α)
    (h : ∀ a ∈ l, p a = false) : l.filter p = [] := by
  induction l with
  | nil => rfl
  | cons x xs ih =>
    have hx : p x = false := h x (by simp)
    rw [List.filter_cons, hx]
    rw [if_neg Bool.false_ne_true]
    exact ih (fun a ha => h a (by simp [ha]))

lemma filterTree_eq {T : Type} (snap : ResolveSnapshot)
    (hs : Monotone snap.resolveStart) (he : Monotone snap.resolveEnd)
    (qs qe : Nat) (inclusive : Bool) :
    ∀ (t : STree T) (i : Nat),
      filterTree (filterPred snap qs qe inclusive) t i =
        (withIndices i t.fringe).filter (fun x => overlapsEntry snap qs qe inclusive x.2) := by
  intro t
  induction t with
  | leaf e =>
    intro i
    simp only [filterTree, STree.fringe, withIndices, filterPred_leaf]
    by_cases h : overlapsEntry snap qs qe inclusive e = true
    · simp [h, List.filter]
    · simp only [Bool.not_eq_true] at h
      simp [h, List.filter]
  | node l r ihl ihr =>
    intro i
    by_cases h : filterPred snap qs qe inclusive (STree.node l r).summaryOf = true
    · simp only [filterTree, h, if_true, STree.fringe, withIndices_append,
        List.filter_append, ihl, ihr, summary_count]
    · simp only [Bool.not_eq_true] at h
      simp only [filterTree, h, Bool.false_eq_true, if_false]
      have hall := prune_sound snap hs he qs qe inclusive _ h
      refine (filter_eq_nil_of _ _ ?_).symm
      intro x hx
      apply hall x.2
      have : ∀ (ls : List (MEntry T)) (j : Nat) (y : Nat × MEntry T),
          y ∈ withIndices j ls → y.2 ∈ ls := by
        intro ls
        induction ls with
        | nil => intro j y hy; simp [withIndices] at hy
        | cons a as ihh =>
          intro j y hy
          simp [withIndices] at hy
          rcases hy with hy | hy
          · subst hy; simp
          · simp [ihh _ _ hy]
      exact this _ _ _ hx

/-- C1: the overlap query of AnchorRangeMultimap is sound and complete.
For any multimap tree and any snapshot whose per-bias resolution maps
are monotone (a snapshot at or after the multimap's version), the
filter-cursor traversal with the min-start/max-end pruning predicate
returns exactly the entries whose resolved range overlaps the query
range, with endpoint touching counting as overlap iff inclusive is
true; each is yielded as (index, resolved range, value), and the result
agrees with a brute-force linear scan over the entry sequence. -/
theorem c1_intersecting_ranges_sound_complete {T : Type} (m : MMultimap T)
    (snap : ResolveSnapshot)
    (hs : Monotone snap.resolveStart) (he : Monotone snap.resolveEnd)
    (qs qe : Nat) (inclusive : Bool) :
    m.intersectingRanges snap qs qe inclusive =
      ((withIndices 0 m.entryList).filter
          (fun x => overlapsEntry snap qs qe inclusive x.2)).map
        (fun x => (x.1, (snap.resolveStart x.2.start, snap.resolveEnd x.2.stop), x.2.value)) := by
  cases htree : m.tree with
  | none => simp [MMultimap.intersectingRanges, MMultimap.entryList, htree, withIndices]
  | some t =>
    simp only [MMultimap.intersectingRanges, MMultimap.entryList, htree]
    rw [filterTree_eq snap hs he qs qe inclusive t 0]

/-- C1 witness: a concrete three-entry multimap queried with both
semantics; the monotonicity hypotheses hold for identity resolution. -/
theorem c1_witness :
    Monotone (fun n : Nat => n) ∧
      (MMultimap.intersectingRanges
          (fromFullOffsetRanges [1] MBias.left MBias.left
            [⟨1, 3, 10⟩, ⟨3, 3, 20⟩, ⟨4, 6, 30⟩])
          ⟨fun n => n, fun n => n⟩ 2 3 true =
        ((withIndices 0 (MMultimap.entryList
            (fromFullOffsetRanges [1] MBias.left MBias.left
              [⟨1, 3, 10⟩, ⟨3, 3, 20⟩, ⟨4, 6, 30⟩]))).filter
            (fun x => overlapsEntry ⟨fun n => n, fun n => n⟩ 2 3 true x.2)).map
          (fun x => (x.1, ((fun n : Nat => n) x.2.start, (fun n : Nat => n) x.2.stop),
            x.2.value))) := by
  constructor
  · exact fun a b h => h
  · exact c1_intersecting_ranges_sound_complete
      (fromFullOffsetRanges [1] MBias.left MBias.left
        [⟨1, 3, 10⟩, ⟨3, 3, 20⟩, ⟨4, 6, 30⟩])
      ⟨fun n => n, fun n => n⟩ (fun a b h => h) (fun a b h => h) 2 3 true

lemma fringe_treeOfList {T : Type} :
    ∀ (l : List (MEntry T)), (match treeOfList l with
      | none => ([] : List (MEntry T))
      | some t => t.fringe) = l := by
  intro l
  induction l with
  | nil => rfl
  | cons x xs ih =>
    cases xs with
    | nil => rfl
    | cons y ys =>
      simp only [treeOfList]
      cases htree : treeOfList (y :: ys) with
      | none =>
        rw [htree] at ih
        simp at ih
      | some t =>
        rw [htree] at ih
        have ih' : t.fringe = y :: ys := ih
        simp [STree.fringe, ih']

lemma entryList_fromFullOffsetRanges {T : Type} (version : List Nat)
    (sb eb : MBias) (l : List (MEntry T)) :
    (fromFullOffsetRanges version sb eb l).entryList = l := by
  unfold fromFullOffsetRanges MMultimap.entryList
  exact fringe_treeOfList l

/-- The ordering the claim names, key (start, then end), both ascending:
lexicographic less-or-equal on (start, stop). -/
def entryKeyLe {T : Type} (a b : MEntry T) : Bool :=
  decide (a.start < b.start) || (decide (a.start = b.start) && decide (a.stop ≤ b.stop))

/-- C9 counterexample: both halves of the claim fail on concrete inputs.
First, the debug assertion in add_summary rejects the adjacent summary
pair coming from entries (0..1) then (0..2) even though that pair is
ascending in the claimed (start, then end) key, so the assertion does
not enforce that key. Second, from_full_offset_ranges applied to the
unsorted input [(5..6), (0..1)] yields a multimap whose entry sequence
is exactly that input, not order-consistent with (start, then end). -/
theorem c9_counterexample :
    (entryKeyLe (⟨0, 1, ()⟩ : MEntry Unit) ⟨0, 2, ()⟩ = true ∧
      addSummaryCheck (MEntry.summary (⟨0, 1, ()⟩ : MEntry Unit))
        (MEntry.summary (⟨0, 2, ()⟩ : MEntry Unit)) = false) ∧
    ((fromFullOffsetRanges [1] MBias.left MBias.right
        [(⟨5, 6, ()⟩ : MEntry Unit), ⟨0, 1, ()⟩]).entryList =
          [(⟨5, 6, ()⟩ : MEntry Unit), ⟨0, 1, ()⟩] ∧
      entryKeyLe (⟨5, 6, ()⟩ : MEntry Unit) ⟨0, 1, ()⟩ = false) := by
  refine ⟨⟨by decide, by decide⟩, ?_, by decide⟩
  rw [entryList_fromFullOffsetRanges]

/-- C9 amended: a multimap built via from_full_offset_ranges stores
exactly the given entries in the given order (the constructor neither
sorts nor rejects them), and the debug-build assertion of add_summary
accepts an adjacent pair of subtree summaries precisely when the left
start is below the right start, or the starts are equal and the left
end is at least the right end - order-consistency with key (start
ascending, end descending on equal starts). -/
theorem c9_amended_ordering {T : Type} (version : List Nat) (sb eb : MBias)
    (l : List (MEntry T)) :
    (fromFullOffsetRanges version sb eb l).entryList = l ∧
      ∀ a b : MSummary, addSummaryCheck a b = true ↔
        (a.start < b.start ∨ (a.start = b.start ∧ b.stop ≤ a.stop)) := by
  refine ⟨entryList_fromFullOffsetRanges version sb eb l, ?_⟩
  intro a b
  rcases Nat.lt_trichotomy a.start b.start with h | h | h
  · have hc : natCmp a.start b.start = Ordering.lt := by simp [natCmp, h]
    simp [addSummaryCheck, hc, h]
  · have hc : natCmp a.start b.start = Ordering.eq := by simp [natCmp, h]
    simp only [addSummaryCheck, hc]
    rw [natCmp_eq_lt]
    simp only [Bool.not_eq_true', decide_eq_false_iff_not, Nat.not_lt]
    omega
  · have hc : natCmp a.start b.start = Ordering.gt := by
      simp [natCmp, Nat.lt_asymm h, Nat.ne_of_gt h]
    simp only [addSummaryCheck, hc, Bool.false_eq_true, false_iff]
    omega

/-- Modelled from the spec: the text core's PointUtf16, a row and a
UTF-16 column. Diagnostic positions, clipping and the edits-since-save
remapping all operate on this type in buffer.rs. -/
structure PointU where
  row : Nat
  column : Nat
deriving DecidableEq, Repr

/-- Lexicographic less-or-equal on points (the derived Ord of the text
core's point types compares row, then column). -/
def pLe (a b : PointU) : Prop :=
  a.row < b.row ∨ (a.row = b.row ∧ a.column ≤ b.column)

instance (a b : PointU) : Decidable (pLe a b) :=
  inferInstanceAs (Decidable (a.row < b.row ∨ (a.row = b.row ∧ a.column ≤ b.column)))

/-- Lexicographic strict order on points. -/
def pLt (a b : PointU) : Prop :=
  a.row < b.row ∨ (a.row = b.row ∧ a.column < b.column)

instance (a b : PointU) : Decidable (pLt a b) :=
  inferInstanceAs (Decidable (a.row < b.row ∨ (a.row = b.row ∧ a.column < b.column)))

/-- Modelled from the spec: relative-point addition of the text core
(a + delta): a delta spanning rows replaces the column, a same-row delta
adds columns. -/
def PointU.add (a b : PointU) : PointU :=
  if b.row = 0 then ⟨a.row, a.column + b.column⟩ else ⟨a.row + b.row, b.column⟩

/-- Modelled from the spec: point difference of the text core (a - b,
with b at or before a): same row gives a column delta, otherwise the row
delta with a's column. -/
def PointU.sub (a b : PointU) : PointU :=
  if a.row = b.row then ⟨0, a.column - b.column⟩ else ⟨a.row - b.row, a.column⟩

/-- Modelled from the spec: one entry of the edits-since-a-version list
of the external text core: the replaced range in pre-edit (old)
coordinates and the replacement range in post-edit (new) coordinates. -/
structure MEdit where
  oldStart : PointU
  oldEnd : PointU
  newStart : PointU
  newEnd : PointU
deriving DecidableEq, Repr

/-- Result of the inner while-let loop of update_diagnostics (buffer.rs
lines 744-754): the not-yet-consumed suffix of the edit list, the
old/new end positions of the last consumed edit, and whether the
diagnostic was found to overlap an edit and must be discarded. -/
structure ConsumeResult where
  edits : List MEdit
  lastOldEnd : PointU
  lastNewEnd : PointU
  discard : Bool
deriving DecidableEq, Repr

/-- The while-let loop of update_diagnostics (buffer.rs lines 744-754):
peek the next edit; consume it and remember its endpoints while its old
range ends at or before the diagnostic start; discard the diagnostic if
the next edit's old range touches the diagnostic range; otherwise stop. -/
def consumeEdits : List MEdit → PointU → PointU → PointU → PointU → ConsumeResult
  | [], loe, lne, _, _ => ⟨[], loe, lne, false⟩
  | e :: rest, loe, lne, s, en =>
    if pLe e.oldEnd s then consumeEdits rest e.oldEnd e.newEnd s en
    else if pLe e.oldStart en ∧ pLe s e.oldEnd then ⟨e :: rest, loe, lne, true⟩
    else ⟨e :: rest, loe, lne, false⟩

/-- Modelled from the spec: the document content a diagnostic batch is
resolved against - the UTF-16 lengths of its lines (for clipping) and
the edits made since the last save (for the disk-based remap); the
latter models content.edits_since(saved_version). -/
structure MContent where
  lineLens : List Nat
  editsSinceSave : List MEdit
deriving DecidableEq, Repr

/-- Modelled from the spec: clip_point_utf16 - clamp a point to a valid
document position: the row to the last row, the column to the row's
length. Left/Right bias only matters inside UTF-16 surrogate pairs,
which the unit-level model has no need to represent. -/
def clipPoint (c : MContent) (p : PointU) : PointU :=
  if p.row < c.lineLens.length then ⟨p.row, min p.column (c.lineLens.getD p.row 0)⟩
  else ⟨c.lineLens.length - 1, c.lineLens.getD (c.lineLens.length - 1) 0⟩

/-- Length of a row of the content. -/
def lineLenAt (c : MContent) (r : Nat) : Nat :=
  c.lineLens.getD r 0

/-- The clipping and widening step of update_diagnostics (buffer.rs
lines 760-769): clip both endpoints; if the clipped range is
zero-width, push the end one column right (re-clipping); if that failed
to widen and the column is positive, pull the start one column left. -/
def clipAndWiden (c : MContent) (s e : PointU) : PointU × PointU :=
  let rs := clipPoint c s
  let re := clipPoint c e
  if rs = re then
    let re1 := clipPoint c ⟨re.row, re.column + 1⟩
    if rs = re1 ∧ 0 < re1.column then
      (clipPoint c ⟨rs.row, rs.column - 1⟩, re1)
    else (rs, re1)
  else (rs, re)

/-- An lsp::Diagnostic as consumed by update_diagnostics: a range,
optional severity (1 Error .. 4 Hint, defaulting to Error), message,
optional source and code, and related-information locations given as a
file path plus range. -/
structure LspDiagnostic where
  rangeStart : PointU
  rangeEnd : PointU
  severity : Option Nat
  message : String
  source : Option String
  code : Option String
  related : List (String × PointU × PointU)
deriving DecidableEq, Repr

/-- The stored Diagnostic value (buffer.rs Diagnostic struct): severity,
message, group id and the primary flag. -/
structure MDiagnostic where
  severity : Nat
  message : String
  groupId : Nat
  isPrimary : Bool
deriving DecidableEq, Repr

/-- A stored diagnostic entry: the clipped range and the diagnostic. -/
abbrev DEntry : Type := (PointU × PointU) × MDiagnostic

/-- diagnostic_ranges from buffer.rs lines 1942-1968: the
related-information ranges whose file matches the buffer's absolute
path, followed by the diagnostic's own range. -/
def diagnosticRanges (d : LspDiagnostic) (absPath : Option String) :
    List (PointU × PointU) :=
  (d.related.filterMap fun i =>
    match absPath with
    | some p => if i.1 = p then some (i.2.1, i.2.2) else none
    | none => none) ++ [(d.rangeStart, d.rangeEnd)]

/-- First-match association lookup (models HashMap/BTreeMap get). -/
def lookupAssoc {K V : Type} [DecidableEq K] : List (K × V) → K → Option V
  | [], _ => none
  | (k, v) :: rest, key => if k = key then some v else lookupAssoc rest key

/-- Key of the group_ids_by_diagnostic_range map: source, code and one
diagnostic range. -/
abbrev GKey : Type := Option String × Option String × PointU × PointU

/-- The find_map over diagnostic_ranges in buffer.rs lines 728-730: the
first range already carrying a group id determines the group. -/
def findGroupId (m : List (GKey × Nat)) (src code : Option String) :
    List (PointU × PointU) → Option Nat
  | [] => none
  | r :: rs =>
    match lookupAssoc m (src, code, r.1, r.2) with
    | some g => some g
    | none => findGroupId m src code rs

/-- diagnostics_by_group_id.entry(group_id).or_insert(Vec).push(entry)
(buffer.rs lines 771-782), on an association list keyed by group id. -/
def pushToGroup (gs : List (Nat × List DEntry)) (gid : Nat) (e : DEntry) :
    List (Nat × List DEntry) :=
  match gs with
  | [] => [(gid, [e])]
  | (g, es) :: rest =>
    if g = gid then (g, es ++ [e]) :: rest else (g, es) :: pushToGroup rest gid e

/-- Set the primary flag of a stored entry. -/
def setPrimary (e : DEntry) : DEntry :=
  (e.1, { e.2 with isPrimary := true })

/-- The primary-marking of buffer.rs lines 790-793: iterator min_by_key
on severity returns the first minimal element, which gets is_primary set.
The first entry whose severity is at most every later severity is that
first minimal element. -/
def markPrimary : List DEntry → List DEntry
  | [] => []
  | e :: es =>
    if es.all fun e2 => decide (e.2.severity ≤ e2.2.severity) then setPrimary e :: es
    else e :: markPrimary es

/-- State threaded through the outer loop of update_diagnostics
(buffer.rs lines 714-723): the unconsumed edits-since-save, the last
consumed edit's endpoints, the range-to-group-id map, the next fresh
group id and the per-group entry lists. -/
structure LoopState where
  edits : List MEdit
  lastOldEnd : PointU
  lastNewEnd : PointU
  rangeMap : List (GKey × Nat)
  nextGroupId : Nat
  groups : List (Nat × List DEntry)

/-- Whether a diagnostic's source is in the configured disk-based set
(buffer.rs lines 739-743). -/
def diskBased (d : LspDiagnostic) (sources : List String) : Bool :=
  match d.source with
  | some s => sources.contains s
  | none => false

/-- Append the diagnostic's entry to its group after clipping and
widening (buffer.rs lines 760-782). -/
def pushEntry (c : MContent) (st : LoopState) (d : LspDiagnostic) (gid : Nat)
    (rm : List (GKey × Nat)) (ng : Nat) (edits : List MEdit) (loe lne s1 e1 : PointU) :
    LoopState :=
  { edits := edits, lastOldEnd := loe, lastNewEnd := lne,
    rangeMap := rm, nextGroupId := ng,
    groups := pushToGroup st.groups gid
      (clipAndWiden c s1 e1, ⟨d.severity.getD 1, d.message, gid, false⟩) }

/-- Body of one outer-loop iteration once the group id is known: apply
the disk-based remap (possibly discarding the diagnostic), then clip,
widen and store (buffer.rs lines 739-782). -/
def processOneWith (c : MContent) (sources : List String) (st : LoopState)
    (d : LspDiagnostic) (gid : Nat) (rm : List (GKey × Nat)) (ng : Nat) : LoopState :=
  if diskBased d sources then
    let r := consumeEdits st.edits st.lastOldEnd st.lastNewEnd d.rangeStart d.rangeEnd
    if r.discard then
      { edits := r.edits, lastOldEnd := r.lastOldEnd, lastNewEnd := r.lastNewEnd,
        rangeMap := rm, nextGroupId := ng, groups := st.groups }
    else
      pushEntry c st d gid rm ng r.edits r.lastOldEnd r.lastNewEnd
        (r.lastNewEnd.add (d.rangeStart.sub r.lastOldEnd))
        (r.lastNewEnd.add (d.rangeEnd.sub r.lastOldEnd))
  else
    pushEntry c st d gid rm ng st.edits st.lastOldEnd st.lastNewEnd
      d.rangeStart d.rangeEnd

/-- One iteration of the outer loop of update_diagnostics (buffer.rs
lines 723-783): find or assign the group id over the diagnostic's
ranges, then remap, clip, widen and store. -/
def processOne (c : MContent) (absPath : Option String) (sources : List String)
    (st : LoopState) (d : LspDiagnostic) : LoopState :=
  let ranges := diagnosticRanges d absPath
  match findGroupId st.rangeMap d.source d.code ranges with
  | some gid => processOneWith c sources st d gid st.rangeMap st.nextGroupId
  | none =>
    processOneWith c sources st d st.nextGroupId
      ((ranges.map fun r => ((d.source, d.code, r.1, r.2), st.nextGroupId)) ++ st.rangeMap)
      (st.nextGroupId + 1)

/-- Stable insertion into a list sorted by le. -/
def insertBy {α : Type} (le : α → α → Bool) (x : α) : List α → List α
  | [] => [x]
  | y :: ys => if le x y then x :: y :: ys else y :: insertBy le x ys

/-- Insertion sort by le (models sort_unstable_by_key: the code only
relies on the result being sorted by the key). -/
def sortBy {α : Type} (le : α → α → Bool) : List α → List α
  | [] => []
  | x :: xs => insertBy le x (sortBy le xs)

/-- The sort key of buffer.rs line 713: (range.start, range.end),
lexicographic. -/
def diagLe (a b : LspDiagnostic) : Bool :=
  decide (pLt a.rangeStart b.rangeStart) ||
    (decide (a.rangeStart = b.rangeStart) && decide (pLe a.rangeEnd b.rangeEnd))

/-- Initial loop state: the full edits-since-save list and zero last
endpoints (buffer.rs lines 715-719). -/
def initialLoopState (content : MContent) : LoopState :=
  ⟨content.editsSinceSave, ⟨0, 0⟩, ⟨0, 0⟩, [], 0, []⟩

/-- Flatten the per-group lists, marking one primary per group
(buffer.rs lines 785-796). -/
def flattenGroups : List (Nat × List DEntry) → List DEntry
  | [] => []
  | g :: gs => markPrimary g.2 ++ flattenGroups gs

/-- The pure core of update_diagnostics: sort, run the outer loop, mark
primaries and flatten into the stored diagnostic sequence (buffer.rs
lines 713-797). The anchor storage of the resulting multimap keeps the
entries in this sequence. -/
def runDiagnostics (content : MContent) (absPath : Option String)
    (sources : List String) (diags : List LspDiagnostic) : List DEntry :=
  let sorted := sortBy diagLe diags
  let st := sorted.foldl (processOne content absPath sources) (initialLoopState content)
  flattenGroups st.groups

/-- The language-server synchronization state consulted by
update_diagnostics: the pending per-version snapshots. -/
structure LSState where
  pendingSnapshots : List (Nat × MContent)
deriving DecidableEq, Repr

/-- The buffer fields read and written by update_diagnostics. -/
structure MBuffer where
  content : MContent
  languageServer : Option LSState
  absPath : Option String
  diskSources : List String
  diagnostics : List DEntry
  diagnosticsUpdateCount : Nat
deriving DecidableEq

/-- Buffer::update_diagnostics (buffer.rs lines 687-815). With a version
the diagnostics resolve against the pending snapshot stored for it
(missing snapshot is the typed error, produced before any state is
touched; a version with no language server at all is the unwrap panic of
line 695, modelled as a distinct error); afterwards pending snapshots
strictly older than the consumed version are pruned and the update count
is incremented. The buffer is returned alongside the result so that the
error paths exhibit the unchanged state. -/
def updateDiagnostics (buf : MBuffer) (version : Option Nat)
    (diags : List LspDiagnostic) : MBuffer × Except String (List DEntry) :=
  match version with
  | none =>
    let nd := runDiagnostics buf.content buf.absPath buf.diskSources diags
    ({ buf with
        diagnostics := nd
        diagnosticsUpdateCount := buf.diagnosticsUpdateCount + 1 },
     Except.ok nd)
  | some v =>
    match buf.languageServer with
    | none => (buf, Except.error "no language server")
    | some ls =>
      match lookupAssoc ls.pendingSnapshots v with
      | none => (buf, Except.error "missing snapshot")
      | some c =>
        let nd := runDiagnostics c buf.absPath buf.diskSources diags
        ({ buf with
            diagnostics := nd
            languageServer := some
              { pendingSnapshots :=
                  ls.pendingSnapshots.filter (fun p => !decide (p.1 < v)) }
            diagnosticsUpdateCount := buf.diagnosticsUpdateCount + 1 },
         Except.ok nd)

/-- A parsed syntax tree paired with the version it was parsed at
(the SyntaxTree cache of buffer.rs). Trees are modelled as opaque
identifiers; versions as counters. -/
structure MSyntaxTree where
  tree : Nat
  parsedAt : Nat
deriving DecidableEq, Repr

/-- An opaque grammar handle. -/
structure MGrammar where
  id : Nat
deriving DecidableEq, Repr

/-- The buffer fields read and written by Buffer::reparse. -/
structure ParseBuffer where
  parsingInBackground : Bool
  grammar : Option MGrammar
  parseCount : Nat
  cachedTree : Option MSyntaxTree
  version : Nat
deriving DecidableEq, Repr

/-- Modelled from the spec: the outcome of racing the parse task against
the short synchronous timeout (block_with_timeout in buffer.rs lines
606-609): either the parse completed in time with a tree, or it timed
out and continues in the background. -/
inductive SyncParse where
  | completed (tree : Nat)
  | timedOut
deriving DecidableEq, Repr

/-- Buffer::did_finish_parsing (buffer.rs lines 674-685): bump
parse_count and commit the tree with the version it was parsed at. -/
def didFinishParsing (buf : ParseBuffer) (tree parsedVersion : Nat) : ParseBuffer :=
  { buf with
      parseCount := buf.parseCount + 1
      cachedTree := some ⟨tree, parsedVersion⟩ }

/-- Buffer::reparse (buffer.rs lines 592-636): a buffer already parsing
in the background returns false untouched; with no grammar nothing
happens and false is returned; otherwise the parse races the timeout -
synchronous completion commits the tree and returns true, a timeout
marks the background flag and returns false (the detached background
task is outside this sequential model). -/
def reparse (buf : ParseBuffer) (sync : SyncParse) : ParseBuffer × Bool :=
  if buf.parsingInBackground then (buf, false)
  else
    match buf.grammar with
    | none => (buf, false)
    | some _ =>
      match sync with
      | SyncParse.completed tree => (didFinishParsing buf tree buf.version, true)
      | SyncParse.timedOut => ({ buf with parsingInBackground := true }, false)

/-- C8: reparse on a buffer already parsing in the background, or with
no grammar configured, is a no-op returning false: the whole buffer
state - in particular parse_count and the cached syntax tree - is
unchanged. -/
theorem c8_reparse_noop (buf : ParseBuffer) (sync : SyncParse)
    (h : buf.parsingInBackground = true ∨ buf.grammar = none) :
    reparse buf sync = (buf, false) ∧
      (reparse buf sync).1.parseCount = buf.parseCount ∧
      (reparse buf sync).1.cachedTree = buf.cachedTree := by
  have hr : reparse buf sync = (buf, false) := by
    rcases h with h | h
    · simp [reparse, h]
    · cases hbg : buf.parsingInBackground with
      | true => simp [reparse, hbg]
      | false => simp [reparse, hbg, h]
  exact ⟨hr, by rw [hr], by rw [hr]⟩

/-- C8 witness: a concrete background-parsing buffer and a concrete
grammarless buffer, both left untouched with result false. -/
theorem c8_witness :
    reparse ⟨true, some ⟨1⟩, 4, some ⟨9, 2⟩, 3⟩ (SyncParse.completed 7) =
      (⟨true, some ⟨1⟩, 4, some ⟨9, 2⟩, 3⟩, false) ∧
    reparse ⟨false, none, 4, none, 3⟩ SyncParse.timedOut =
      (⟨false, none, 4, none, 3⟩, false) := by
  constructor
  · exact (c8_reparse_noop ⟨true, some ⟨1⟩, 4, some ⟨9, 2⟩, 3⟩
      (SyncParse.completed 7) (Or.inl rfl)).1
  · exact (c8_reparse_noop ⟨false, none, 4, none, 3⟩
      SyncParse.timedOut (Or.inr rfl)).1

/-- C5: update_diagnostics called with a version for which no pending
snapshot is stored returns the typed missing-snapshot error and leaves
the buffer - its stored diagnostics, its update count and its pending
snapshot map - exactly as it was. -/
theorem c5_missing_snapshot_error (buf : MBuffer) (ls : LSState) (v : Nat)
    (diags : List LspDiagnostic)
    (hls : buf.languageServer = some ls)
    (hmiss : lookupAssoc ls.pendingSnapshots v = none) :
    (updateDiagnostics buf (some v) diags).2 = Except.error "missing snapshot" ∧
      (updateDiagnostics buf (some v) diags).1 = buf ∧
      (updateDiagnostics buf (some v) diags).1.diagnostics = buf.diagnostics ∧
      (updateDiagnostics buf (some v) diags).1.diagnosticsUpdateCount =
        buf.diagnosticsUpdateCount ∧
      (updateDiagnostics buf (some v) diags).1.languageServer = some ls := by
  have hu : updateDiagnostics buf (some v) diags = (buf, Except.error "missing snapshot") := by
    simp [updateDiagnostics, hls, hmiss]
  refine ⟨by rw [hu], by rw [hu], by rw [hu], by rw [hu], by rw [hu]; exact hls⟩

/-- C5 witness: a concrete buffer whose language server holds snapshots
for versions 3 and 5, queried with version 4. -/
theorem c5_witness :
    (updateDiagnostics
        ⟨⟨[10], []⟩, some ⟨[(3, ⟨[10], []⟩), (5, ⟨[10], []⟩)]⟩, none, [], [], 7⟩
        (some 4) []).2 = Except.error "missing snapshot" ∧
      (updateDiagnostics
        ⟨⟨[10], []⟩, some ⟨[(3, ⟨[10], []⟩), (5, ⟨[10], []⟩)]⟩, none, [], [], 7⟩
        (some 4) []).1 =
        ⟨⟨[10], []⟩, some ⟨[(3, ⟨[10], []⟩), (5, ⟨[10], []⟩)]⟩, none, [], [], 7⟩ := by
  have h := c5_missing_snapshot_error
    ⟨⟨[10], []⟩, some ⟨[(3, ⟨[10], []⟩), (5, ⟨[10], []⟩)]⟩, none, [], [], 7⟩
    ⟨[(3, ⟨[10], []⟩), (5, ⟨[10], []⟩)]⟩ 4 [] rfl (by decide)
  exact ⟨h.1, h.2.1⟩

lemma clipPoint_row_lt (c : MContent) (hc : c.lineLens ≠ []) (p : PointU) :
    (clipPoint c p).row < c.lineLens.length := by
  have hn : 0 < c.lineLens.length := List.length_pos.mpr hc
  unfold clipPoint
  by_cases h : p.row < c.lineLens.length
  · simp [h]
  · simp [h]
    omega

lemma clipPoint_col_le (c : MContent) (p : PointU) :
    (clipPoint c p).column ≤ lineLenAt c (clipPoint c p).row := by
  unfold clipPoint lineLenAt
  by_cases h : p.row < c.lineLens.length
  · simp [h]
  · simp [h]

lemma clipPoint_of_valid (c : MContent) (p : PointU)
    (h1 : p.row < c.lineLens.length) (h2 : p.column ≤ lineLenAt c p.row) :
    clipPoint c p = p := by
  unfold clipPoint
  unfold lineLenAt at h2
  rw [if_pos h1, Nat.min_eq_left h2]

lemma clipPoint_row_col (c : MContent) (r x : Nat) (h : r < c.lineLens.length) :
    clipPoint c ⟨r, x⟩ = ⟨r, min x (lineLenAt c r)⟩ := by
  unfold clipPoint lineLenAt
  simp [h]

/-- C7: inside update_diagnostics, a diagnostic whose clipped range is
zero-width is widened by exactly one column to the right; when the
position sits at the end of its line (so right-widening is impossible)
it is widened one column to the left instead; the only way the stored
range stays degenerate is an empty line, where the document permits no
widening at all. -/
theorem c7_degenerate_range_widened (c : MContent) (s e : PointU)
    (hc : c.lineLens ≠ [])
    (hdeg : clipPoint c s = clipPoint c e) :
    ((clipPoint c s).column < lineLenAt c (clipPoint c s).row →
      clipAndWiden c s e =
        (clipPoint c s, ⟨(clipPoint c s).row, (clipPoint c s).column + 1⟩)) ∧
    ((clipPoint c s).column = lineLenAt c (clipPoint c s).row →
      0 < (clipPoint c s).column →
      clipAndWiden c s e =
        (⟨(clipPoint c s).row, (clipPoint c s).column - 1⟩, clipPoint c s)) ∧
    ((clipAndWiden c s e).1 = (clipAndWiden c s e).2 →
      lineLenAt c (clipPoint c s).row = 0) := by
  have hrow : (clipPoint c s).row < c.lineLens.length := clipPoint_row_lt c hc s
  have hcol : (clipPoint c s).column ≤ lineLenAt c (clipPoint c s).row := clipPoint_col_le c s
  have hw : clipAndWiden c s e =
      (if clipPoint c s = clipPoint c ⟨(clipPoint c s).row, (clipPoint c s).column + 1⟩ ∧
          0 < (clipPoint c ⟨(clipPoint c s).row, (clipPoint c s).column + 1⟩).column
       then (clipPoint c ⟨(clipPoint c s).row, (clipPoint c s).column - 1⟩,
             clipPoint c ⟨(clipPoint c s).row, (clipPoint c s).column + 1⟩)
       else (clipPoint c s, clipPoint c ⟨(clipPoint c s).row, (clipPoint c s).column + 1⟩)) := by
    unfold clipAndWiden
    rw [← hdeg]
    simp
  rcases Nat.lt_or_ge (clipPoint c s).column (lineLenAt c (clipPoint c s).row) with hlt | hge
  · -- right widening succeeds
    have hplus : clipPoint c ⟨(clipPoint c s).row, (clipPoint c s).column + 1⟩ =
        ⟨(clipPoint c s).row, (clipPoint c s).column + 1⟩ := by
      rw [clipPoint_row_col c _ _ hrow]
      simp [Nat.min_eq_left hlt]
    have hne : clipPoint c s ≠
        (⟨(clipPoint c s).row, (clipPoint c s).column + 1⟩ : PointU) := by
      intro hcontra
      have := congrArg PointU.column hcontra
      simp at this
    rw [hplus] at hw
    simp only [hne, false_and, if_false] at hw
    refine ⟨fun _ => hw, fun habs _ => absurd habs (Nat.ne_of_lt hlt), fun hdd => ?_⟩
    rw [hw] at hdd
    exact absurd (congrArg PointU.column hdd) (by simp)
  · -- column is at (hence equal to) the line length
    have heq : (clipPoint c s).column = lineLenAt c (clipPoint c s).row := le_antisymm hcol hge
    have hplus : clipPoint c ⟨(clipPoint c s).row, (clipPoint c s).column + 1⟩ =
        clipPoint c s := by
      rw [clipPoint_row_col c _ _ hrow]
      have : min ((clipPoint c s).column + 1) (lineLenAt c (clipPoint c s).row) =
          (clipPoint c s).column := by omega
      rw [this]
    rw [hplus] at hw
    by_cases hpos : 0 < (clipPoint c s).column
    · have hminus : clipPoint c ⟨(clipPoint c s).row, (clipPoint c s).column - 1⟩ =
          ⟨(clipPoint c s).row, (clipPoint c s).column - 1⟩ := by
        rw [clipPoint_row_col c _ _ hrow]
        have : min ((clipPoint c s).column - 1) (lineLenAt c (clipPoint c s).row) =
            (clipPoint c s).column - 1 := by omega
        rw [this]
      simp only [hpos, and_true, if_pos rfl] at hw
      rw [hminus] at hw
      refine ⟨fun hl => absurd hl (by omega), fun _ _ => hw, fun hdd => ?_⟩
      rw [hw] at hdd
      have := congrArg PointU.column hdd
      simp at this
      omega
    · have hz : (clipPoint c s).column = 0 := by omega
      simp only [hpos, and_false, if_false] at hw
      refine ⟨fun hl => absurd hl (by omega), fun _ hp => absurd hp hpos, fun _ => ?_⟩
      omega

/-- C7 witness: a twelve-column single-line document with a zero-width
diagnostic at column 5 - the interior case widens one column to the
right. -/
theorem c7_witness :
    ((clipPoint ⟨[12], []⟩ ⟨0, 5⟩).column <
        lineLenAt ⟨[12], []⟩ (clipPoint ⟨[12], []⟩ ⟨0, 5⟩).row →
      clipAndWiden ⟨[12], []⟩ ⟨0, 5⟩ ⟨0, 5⟩ =
        (clipPoint ⟨[12], []⟩ ⟨0, 5⟩,
         ⟨(clipPoint ⟨[12], []⟩ ⟨0, 5⟩).row,
          (clipPoint ⟨[12], []⟩ ⟨0, 5⟩).column + 1⟩)) ∧
    ((clipPoint ⟨[12], []⟩ ⟨0, 5⟩).column =
        lineLenAt ⟨[12], []⟩ (clipPoint ⟨[12], []⟩ ⟨0, 5⟩).row →
      0 < (clipPoint ⟨[12], []⟩ ⟨0, 5⟩).column →
      clipAndWiden ⟨[12], []⟩ ⟨0, 5⟩ ⟨0, 5⟩ =
        (⟨(clipPoint ⟨[12], []⟩ ⟨0, 5⟩).row,
          (clipPoint ⟨[12], []⟩ ⟨0, 5⟩).column - 1⟩,
         clipPoint ⟨[12], []⟩ ⟨0, 5⟩)) ∧
    ((clipAndWiden ⟨[12], []⟩ ⟨0, 5⟩ ⟨0, 5⟩).1 =
        (clipAndWiden ⟨[12], []⟩ ⟨0, 5⟩ ⟨0, 5⟩).2 →
      lineLenAt ⟨[12], []⟩ (clipPoint ⟨[12], []⟩ ⟨0, 5⟩).row = 0) :=
  c7_degenerate_range_widened ⟨[12], []⟩ ⟨0, 5⟩ ⟨0, 5⟩ (by decide) (by decide)

lemma pLe_trans {a b c : PointU} (h1 : pLe a b) (h2 : pLe b c) : pLe a c := by
  unfold pLe at *
  omega

lemma pLe_of_not {a b : PointU} (h : ¬ pLe a b) : pLe b a := by
  unfold pLe at *
  omega

/-- Relative ordering the edits-since-a-version list satisfies: each
edit's old range is well formed and consecutive old ranges do not
overlap and appear in order. -/
def editsWF (l : List MEdit) : Prop :=
  (∀ e ∈ l, pLe e.oldStart e.oldEnd) ∧
    List.Chain' (fun a b => pLe a.oldEnd b.oldStart) l

instance (l : List MEdit) : Decidable (editsWF l) :=
  inferInstanceAs (Decidable ((∀ e ∈ l, pLe e.oldStart e.oldEnd) ∧
    List.Chain' (fun a b : MEdit => pLe a.oldEnd b.oldStart) l))

lemma edits_head_rel (e : MEdit) (rest : List MEdit)
    (hwf : ∀ ed ∈ rest, pLe ed.oldStart ed.oldEnd)
    (hch : List.Chain' (fun a b => pLe a.oldEnd b.oldStart) (e :: rest)) :
    ∀ ed ∈ rest, pLe e.oldEnd ed.oldStart := by
  induction rest generalizing e with
  | nil => intro ed hed; simp at hed
  | cons b bs ih =>
    intro ed hed
    have hhead : pLe e.oldEnd b.oldStart := (List.chain'_cons.mp hch).1
    rcases List.mem_cons.mp hed with rfl | hed
    · exact hhead
    · have hbb : pLe b.oldStart b.oldEnd := hwf b (by simp)
      have hrec := ih b (fun x hx => hwf x (by simp [hx])) (List.chain'_cons.mp hch).2 ed hed
      exact pLe_trans (pLe_trans hhead hbb) hrec

lemma consume_discard_iff :
    ∀ (edits : List MEdit) (loe lne s en : PointU), editsWF edits →
      ((consumeEdits edits loe lne s en).discard = true ↔
        ∃ ed ∈ edits, ¬ pLe ed.oldEnd s ∧ pLe ed.oldStart en) := by
  intro edits
  induction edits with
  | nil =>
    intro loe lne s en _
    simp [consumeEdits]
  | cons e rest ih =>
    intro loe lne s en hwf
    rcases hwf with ⟨hwf1, hwf2⟩
    by_cases h1 : pLe e.oldEnd s
    · rw [consumeEdits, if_pos h1]
      have hih := ih e.oldEnd e.newEnd s en
        ⟨fun ed hed => hwf1 ed (by simp [hed]), hwf2.tail⟩
      rw [hih]
      constructor
      · rintro ⟨ed, hed, hprop⟩
        exact ⟨ed, by simp [hed], hprop⟩
      · rintro ⟨ed, hed, hprop⟩
        rcases List.mem_cons.mp hed with rfl | hed
        · exact absurd h1 hprop.1
        · exact ⟨ed, hed, hprop⟩
    · by_cases h2 : pLe e.oldStart en
      · rw [consumeEdits, if_neg h1, if_pos ⟨h2, pLe_of_not h1⟩]
        simp only [true_iff]
        exact ⟨e, by simp, h1, h2⟩
      · have hcond : ¬ (pLe e.oldStart en ∧ pLe s e.oldEnd) := fun hc => h2 hc.1
        rw [consumeEdits, if_neg h1, if_neg hcond]
        simp only [Bool.false_eq_true, false_iff]
        rintro ⟨ed, hed, hne, hst⟩
        rcases List.mem_cons.mp hed with rfl | hed
        · exact h2 hst
        · have h3 := edits_head_rel e rest
            (fun x hx => hwf1 x (by simp [hx])) hwf2 ed hed
          have h4 : pLe e.oldStart e.oldEnd := hwf1 e (by simp)
          exact h2 (pLe_trans (pLe_trans h4 h3) hst)

lemma consumeEdits_suffix :
    ∀ (edits : List MEdit) (loe lne s en : PointU),
      (consumeEdits edits loe lne s en).edits.IsSuffix edits := by
  intro edits
  induction edits with
  | nil =>
    intro loe lne s en
    simp [consumeEdits]
  | cons e rest ih =>
    intro loe lne s en
    rw [consumeEdits]
    by_cases h1 : pLe e.oldEnd s
    · rw [if_pos h1]
      exact (ih e.oldEnd e.newEnd s en).trans (List.suffix_cons e rest)
    · rw [if_neg h1]
      by_cases h2 : pLe e.oldStart en ∧ pLe s e.oldEnd
      · rw [if_pos h2]
      · rw [if_neg h2]

lemma processOneWith_suffix (c : MContent) (srcs : List String) (st : LoopState)
    (d : LspDiagnostic) (gid : Nat) (rm : List (GKey × Nat)) (ng : Nat) :
    (processOneWith c srcs st d gid rm ng).edits.IsSuffix st.edits := by
  unfold processOneWith
  by_cases hd : diskBased d srcs
  · rw [if_pos hd]
    have hs := consumeEdits_suffix st.edits st.lastOldEnd st.lastNewEnd
      d.rangeStart d.rangeEnd
    by_cases hr : (consumeEdits st.edits st.lastOldEnd st.lastNewEnd
        d.rangeStart d.rangeEnd).discard
    · simp only [hr, if_true]
      exact hs
    · simp only [hr, Bool.false_eq_true, if_false]
      exact hs
  · rw [if_neg hd]
    exact List.suffix_refl _

lemma processOne_suffix (c : MContent) (ap : Option String) (srcs : List String)
    (st : LoopState) (d : LspDiagnostic) :
    (processOne c ap srcs st d).edits.IsSuffix st.edits := by
  simp only [processOne]
  cases hf : findGroupId st.rangeMap d.source d.code (diagnosticRanges d ap) with
  | some gid =>
    exact processOneWith_suffix c srcs st d gid st.rangeMap st.nextGroupId
  | none =>
    exact processOneWith_suffix c srcs st d st.nextGroupId _ (st.nextGroupId + 1)

lemma foldl_processOne_suffix (c : MContent) (ap : Option String) (srcs : List String) :
    ∀ (ds : List LspDiagnostic) (st : LoopState),
      (ds.foldl (processOne c ap srcs) st).edits.IsSuffix st.edits := by
  intro ds
  induction ds with
  | nil =>
    intro st
    exact List.suffix_refl _
  | cons d ds ih =>
    intro st
    exact (ih (processOne c ap srcs st d)).trans (processOne_suffix c ap srcs st d)

/-- C3: the disk-based diagnostic remap. The inner loop discards a
diagnostic exactly when some edit of the (sorted, disjoint) remaining
edits-since-save list touches its range; non-discarded disk-based
diagnostics have both positions shifted forward by the delta of the
last consumed edit; the whole batch consumes the edit list in a single
forward pass (after any amount of processing the remaining edits are a
suffix of the initial list, so each edit is consumed at most once
across all diagnostics); and concretely, a diagnostic at offset 10 of
the single-line ten-character text becomes offset 12 after the
insertion of two characters at offset 2, the stored entry being the
widened range ending at column 12. -/
theorem c3_disk_based_remap :
    (∀ (edits : List MEdit) (loe lne s en : PointU), editsWF edits →
      ((consumeEdits edits loe lne s en).discard = true ↔
        ∃ ed ∈ edits, ¬ pLe ed.oldEnd s ∧ pLe ed.oldStart en)) ∧
    (∀ (c : MContent) (ap : Option String) (srcs : List String)
        (ds : List LspDiagnostic) (st : LoopState),
      (ds.foldl (processOne c ap srcs) st).edits.IsSuffix st.edits) ∧
    (∀ (c : MContent) (srcs : List String) (st : LoopState) (d : LspDiagnostic)
        (gid : Nat) (rm : List (GKey × Nat)) (ng : Nat),
      diskBased d srcs = true →
      (consumeEdits st.edits st.lastOldEnd st.lastNewEnd
          d.rangeStart d.rangeEnd).discard = false →
      processOneWith c srcs st d gid rm ng =
        pushEntry c st d gid rm ng
          (consumeEdits st.edits st.lastOldEnd st.lastNewEnd
            d.rangeStart d.rangeEnd).edits
          (consumeEdits st.edits st.lastOldEnd st.lastNewEnd
            d.rangeStart d.rangeEnd).lastOldEnd
          (consumeEdits st.edits st.lastOldEnd st.lastNewEnd
            d.rangeStart d.rangeEnd).lastNewEnd
          ((consumeEdits st.edits st.lastOldEnd st.lastNewEnd
              d.rangeStart d.rangeEnd).lastNewEnd.add
            (d.rangeStart.sub (consumeEdits st.edits st.lastOldEnd st.lastNewEnd
              d.rangeStart d.rangeEnd).lastOldEnd))
          ((consumeEdits st.edits st.lastOldEnd st.lastNewEnd
              d.rangeStart d.rangeEnd).lastNewEnd.add
            (d.rangeEnd.sub (consumeEdits st.edits st.lastOldEnd st.lastNewEnd
              d.rangeStart d.rangeEnd).lastOldEnd))) ∧
    ((consumeEdits [⟨⟨0, 2⟩, ⟨0, 2⟩, ⟨0, 2⟩, ⟨0, 4⟩⟩]
        ⟨0, 0⟩ ⟨0, 0⟩ ⟨0, 10⟩ ⟨0, 10⟩).lastNewEnd.add
      (PointU.sub ⟨0, 10⟩
        (consumeEdits [⟨⟨0, 2⟩, ⟨0, 2⟩, ⟨0, 2⟩, ⟨0, 4⟩⟩]
          ⟨0, 0⟩ ⟨0, 0⟩ ⟨0, 10⟩ ⟨0, 10⟩).lastOldEnd) = ⟨0, 12⟩) ∧
    ((updateDiagnostics
        ⟨⟨[12], [⟨⟨0, 2⟩, ⟨0, 2⟩, ⟨0, 2⟩, ⟨0, 4⟩⟩]⟩, none, none, ["disk"], [], 0⟩
        none
        [⟨⟨0, 10⟩, ⟨0, 10⟩, some 1, "m", some "disk", none, []⟩]).1.diagnostics =
      [((⟨0, 11⟩, ⟨0, 12⟩), ⟨1, "m", 0, true⟩)]) := by
  refine ⟨consume_discard_iff, foldl_processOne_suffix, ?_, by decide, by decide⟩
  intro c srcs st d gid rm ng hd hnd
  simp [processOneWith, hd, hnd]

/-- C3 witness: the discard criterion instantiated at the scenario edit
list, whose well-formedness is checked by decision. -/
theorem c3_witness :
    editsWF [⟨⟨0, 2⟩, ⟨0, 2⟩, ⟨0, 2⟩, ⟨0, 4⟩⟩] ∧
      ((consumeEdits [⟨⟨0, 2⟩, ⟨0, 2⟩, ⟨0, 2⟩, ⟨0, 4⟩⟩]
          ⟨0, 0⟩ ⟨0, 0⟩ ⟨0, 10⟩ ⟨0, 10⟩).discard = true ↔
        ∃ ed ∈ [(⟨⟨0, 2⟩, ⟨0, 2⟩, ⟨0, 2⟩, ⟨0, 4⟩⟩ : MEdit)],
          ¬ pLe ed.oldEnd ⟨0, 10⟩ ∧ pLe ed.oldStart ⟨0, 10⟩) :=
  ⟨by simp [editsWF, pLe],
   c3_disk_based_remap.1 [⟨⟨0, 2⟩, ⟨0, 2⟩, ⟨0, 2⟩, ⟨0, 4⟩⟩]
     ⟨0, 0⟩ ⟨0, 0⟩ ⟨0, 10⟩ ⟨0, 10⟩ (by simp [editsWF, pLe])⟩

lemma lookup_filter_not_lt {V : Type} :
    ∀ (l : List (Nat × V)) (v : Nat),
      lookupAssoc (l.filter fun p => !decide (p.1 < v)) v = lookupAssoc l v := by
  intro l v
  induction l with
  | nil => rfl
  | cons kv rest ih =>
    rcases kv with ⟨k, c⟩
    rw [List.filter_cons]
    by_cases hk : k = v
    · subst hk
      have hkeep : (!decide (k < k)) = true := by simp
      rw [hkeep, if_pos rfl]
      simp [lookupAssoc]
    · by_cases hlt : k < v
      · have hdrop : (!decide (k < v)) = false := by simp [hlt]
        rw [hdrop, if_neg Bool.false_ne_true, ih]
        simp [lookupAssoc, hk]
      · have hkeep : (!decide (k < v)) = true := by simp [hlt]
        rw [hkeep, if_pos rfl]
        simp [lookupAssoc, hk, ih]

/-- C6: update_diagnostics is idempotent. If a call succeeds, a second
call with the same version and the same raw diagnostics (and no
intervening edits) also succeeds, produces exactly the same stored
diagnostics - same grouping, same primary assignment - and each call
increments diagnostics_update_count by exactly one. -/
theorem c6_update_diagnostics_idempotent (buf : MBuffer) (version : Option Nat)
    (diags : List LspDiagnostic) (buf1 : MBuffer) (op1 : List DEntry)
    (h1 : updateDiagnostics buf version diags = (buf1, Except.ok op1)) :
    (∃ op2, (updateDiagnostics buf1 version diags).2 = Except.ok op2) ∧
      (updateDiagnostics buf1 version diags).1.diagnostics = buf1.diagnostics ∧
      buf1.diagnosticsUpdateCount = buf.diagnosticsUpdateCount + 1 ∧
      (updateDiagnostics buf1 version diags).1.diagnosticsUpdateCount =
        buf.diagnosticsUpdateCount + 2 := by
  cases version with
  | none =>
    have hb : buf1 = { buf with
        diagnostics := runDiagnostics buf.content buf.absPath buf.diskSources diags
        diagnosticsUpdateCount := buf.diagnosticsUpdateCount + 1 } := by
      have hfst := congrArg Prod.fst h1
      simpa [updateDiagnostics] using hfst.symm
    subst hb
    refine ⟨⟨runDiagnostics buf.content buf.absPath buf.diskSources diags, ?_⟩, ?_, ?_, ?_⟩ <;>
      simp [updateDiagnostics]
  | some v =>
    cases hls : buf.languageServer with
    | none =>
      rw [updateDiagnostics] at h1
      simp only [hls] at h1
      exact absurd (congrArg Prod.snd h1) (by simp)
    | some ls =>
      cases hlook : lookupAssoc ls.pendingSnapshots v with
      | none =>
        rw [updateDiagnostics] at h1
        simp only [hls, hlook] at h1
        exact absurd (congrArg Prod.snd h1) (by simp)
      | some c =>
        have hb : buf1 = { buf with
            diagnostics := runDiagnostics c buf.absPath buf.diskSources diags
            languageServer := some
              { pendingSnapshots :=
                  ls.pendingSnapshots.filter (fun p => !decide (p.1 < v)) }
            diagnosticsUpdateCount := buf.diagnosticsUpdateCount + 1 } := by
          have hfst := congrArg Prod.fst h1
          rw [updateDiagnostics] at hfst
          simp only [hls, hlook] at hfst
          exact hfst.symm
        subst hb
        have hlook1 : lookupAssoc
            (ls.pendingSnapshots.filter fun p => !decide (p.1 < v)) v = some c := by
          rw [lookup_filter_not_lt]
          exact hlook
        refine ⟨⟨runDiagnostics c buf.absPath buf.diskSources diags, ?_⟩, ?_, ?_, ?_⟩ <;>
          simp [updateDiagnostics, hlook1]

/-- C6 witness: a concrete buffer updated twice with one diagnostic. -/
theorem c6_witness :
    (∃ op2, (updateDiagnostics
        ⟨⟨[10], []⟩, none, none, [],
          [((⟨0, 1⟩, ⟨0, 3⟩), ⟨1, "e", 0, true⟩)], 1⟩
        none [⟨⟨0, 1⟩, ⟨0, 3⟩, some 1, "e", none, none, []⟩]).2 = Except.ok op2) ∧
      (updateDiagnostics
        ⟨⟨[10], []⟩, none, none, [],
          [((⟨0, 1⟩, ⟨0, 3⟩), ⟨1, "e", 0, true⟩)], 1⟩
        none [⟨⟨0, 1⟩, ⟨0, 3⟩, some 1, "e", none, none, []⟩]).1.diagnostics =
        (⟨⟨[10], []⟩, none, none, [],
          [((⟨0, 1⟩, ⟨0, 3⟩), ⟨1, "e", 0, true⟩)], 1⟩ : MBuffer).diagnostics ∧
      (⟨⟨[10], []⟩, none, none, [],
          [((⟨0, 1⟩, ⟨0, 3⟩), ⟨1, "e", 0, true⟩)], 1⟩ : MBuffer).diagnosticsUpdateCount =
        (⟨⟨[10], []⟩, none, none, [], [], 0⟩ : MBuffer).diagnosticsUpdateCount + 1 ∧
      (updateDiagnostics
        ⟨⟨[10], []⟩, none, none, [],
          [((⟨0, 1⟩, ⟨0, 3⟩), ⟨1, "e", 0, true⟩)], 1⟩
        none [⟨⟨0, 1⟩, ⟨0, 3⟩, some 1, "e", none, none, []⟩]).1.diagnosticsUpdateCount =
        (⟨⟨[10], []⟩, none, none, [], [], 0⟩ : MBuffer).diagnosticsUpdateCount + 2 :=
  c6_update_diagnostics_idempotent
    ⟨⟨[10], []⟩, none, none, [], [], 0⟩ none
    [⟨⟨0, 1⟩, ⟨0, 3⟩, some 1, "e", none, none, []⟩]
    ⟨⟨[10], []⟩, none, none, [],
      [((⟨0, 1⟩, ⟨0, 3⟩), ⟨1, "e", 0, true⟩)], 1⟩
    [((⟨0, 1⟩, ⟨0, 3⟩), ⟨1, "e", 0, true⟩)]
    (by rfl)

/-- Invariant of the per-group association list built by the outer loop:
group ids are unique keys, every bucket is nonempty, and every entry in
a bucket carries that bucket's group id with the primary flag still
unset. -/
def groupsWF (gs : List (Nat × List DEntry)) : Prop :=
  (gs.map Prod.fst).Nodup ∧
    ∀ p ∈ gs, p.2 ≠ [] ∧ ∀ x ∈ p.2, x.2.groupId = p.1 ∧ x.2.isPrimary = false

lemma pushToGroup_keys (gs : List (Nat × List DEntry)) (gid : Nat) (e : DEntry) :
    (pushToGroup gs gid e).map Prod.fst = gs.map Prod.fst ∨
      ((pushToGroup gs gid e).map Prod.fst = gs.map Prod.fst ++ [gid] ∧
        gid ∉ gs.map Prod.fst) := by
  induction gs with
  | nil =>
    right
    simp [pushToGroup]
  | cons ges rest ih =>
    rcases ges with ⟨g, es⟩
    rw [pushToGroup]
    by_cases hg : g = gid
    · left
      rw [if_pos hg]
      simp
    · rw [if_neg hg]
      rcases ih with hk | ⟨hk, hmem⟩
      · left
        simp [hk]
      · right
        constructor
        · simp [hk]
        · simp only [List.map_cons, List.mem_cons]
          rintro (h | h)
          · exact hg h.symm
          · exact hmem h

lemma pushToGroup_nodup (gs : List (Nat × List DEntry)) (gid : Nat) (e : DEntry)
    (h : (gs.map Prod.fst).Nodup) : ((pushToGroup gs gid e).map Prod.fst).Nodup := by
  rcases pushToGroup_keys gs gid e with hk | ⟨hk, hmem⟩
  · rw [hk]
    exact h
  · rw [hk]
    rw [List.nodup_append]
    refine ⟨h, List.nodup_singleton gid, ?_⟩
    intro a ha hb
    simp at hb
    subst hb
    exact hmem ha

lemma pushToGroup_members (gs : List (Nat × List DEntry)) (gid : Nat) (e : DEntry)
    (hwf : ∀ p ∈ gs, p.2 ≠ [] ∧ ∀ x ∈ p.2, x.2.groupId = p.1 ∧ x.2.isPrimary = false)
    (hgid : e.2.groupId = gid) (hprim : e.2.isPrimary = false) :
    ∀ p ∈ pushToGroup gs gid e,
      p.2 ≠ [] ∧ ∀ x ∈ p.2, x.2.groupId = p.1 ∧ x.2.isPrimary = false := by
  induction gs with
  | nil =>
    intro p hp
    simp [pushToGroup] at hp
    subst hp
    refine ⟨by simp, ?_⟩
    intro x hx
    simp at hx
    subst hx
    exact ⟨hgid, hprim⟩
  | cons ges rest ih =>
    rcases ges with ⟨g, es⟩
    intro p hp
    rw [pushToGroup] at hp
    by_cases hg : g = gid
    · rw [if_pos hg] at hp
      rcases List.mem_cons.mp hp with rfl | hp
      · refine ⟨by simp, ?_⟩
        intro x hx
        rcases List.mem_append.mp hx with hx | hx
        · exact (hwf (g, es) (by simp)).2 x hx
        · simp at hx
          subst hx
          exact ⟨by rw [hgid, hg], hprim⟩
      · exact hwf p (by simp [hp])
    · rw [if_neg hg] at hp
      rcases List.mem_cons.mp hp with rfl | hp
      · exact hwf (g, es) (by simp)
      · exact ih (fun q hq => hwf q (by simp [hq])) p hp

lemma processOneWith_groups (c : MContent) (srcs : List String) (st : LoopState)
    (d : LspDiagnostic) (gid : Nat) (rm : List (GKey × Nat)) (ng : Nat) :
    (processOneWith c srcs st d gid rm ng).groups = st.groups ∨
      ∃ range sev msg, (processOneWith c srcs st d gid rm ng).groups =
        pushToGroup st.groups gid (range, ⟨sev, msg, gid, false⟩) := by
  unfold processOneWith
  by_cases hd : diskBased d srcs
  · rw [if_pos hd]
    by_cases hr : (consumeEdits st.edits st.lastOldEnd st.lastNewEnd
        d.rangeStart d.rangeEnd).discard = true
    · rw [if_pos hr]
      left
      rfl
    · rw [if_neg hr]
      right
      exact ⟨_, _, _, rfl⟩
  · rw [if_neg hd]
    right
    exact ⟨_, _, _, rfl⟩

lemma processOne_groups (c : MContent) (ap : Option String) (srcs : List String)
    (st : LoopState) (d : LspDiagnostic) :
    (processOne c ap srcs st d).groups = st.groups ∨
      ∃ gid range sev msg, (processOne c ap srcs st d).groups =
        pushToGroup st.groups gid (range, ⟨sev, msg, gid, false⟩) := by
  simp only [processOne]
  cases findGroupId st.rangeMap d.source d.code (diagnosticRanges d ap) with
  | some gid =>
    rcases processOneWith_groups c srcs st d gid st.rangeMap st.nextGroupId with h | ⟨r, sv, m, h⟩
    · exact Or.inl h
    · exact Or.inr ⟨gid, r, sv, m, h⟩
  | none =>
    rcases processOneWith_groups c srcs st d st.nextGroupId
        ((List.map (fun r => ((d.source, d.code, r.1, r.2), st.nextGroupId))
          (diagnosticRanges d ap)) ++ st.rangeMap) (st.nextGroupId + 1) with h | ⟨r, sv, m, h⟩
    · exact Or.inl h
    · exact Or.inr ⟨st.nextGroupId, r, sv, m, h⟩

lemma processOne_wf (c : MContent) (ap : Option String) (srcs : List String)
    (st : LoopState) (d : LspDiagnostic) (h : groupsWF st.groups) :
    groupsWF (processOne c ap srcs st d).groups := by
  rcases processOne_groups c ap srcs st d with hg | ⟨gid, range, sev, msg, hg⟩
  · rw [hg]
    exact h
  · rw [hg]
    exact ⟨pushToGroup_nodup _ _ _ h.1, pushToGroup_members _ _ _ h.2 rfl rfl⟩

lemma foldl_wf (c : MContent) (ap : Option String) (srcs : List String) :
    ∀ (ds : List LspDiagnostic) (st : LoopState), groupsWF st.groups →
      groupsWF ((ds.foldl (processOne c ap srcs) st).groups) := by
  intro ds
  induction ds with
  | nil =>
    intro st h
    exact h
  | cons d ds ih =>
    intro st h
    exact ih (processOne c ap srcs st d) (processOne_wf c ap srcs st d h)

lemma markPrimary_gidsev (es : List DEntry) :
    (markPrimary es).map (fun e => (e.2.groupId, e.2.severity)) =
      es.map (fun e => (e.2.groupId, e.2.severity)) := by
  induction es with
  | nil => rfl
  | cons e es ih =>
    rw [markPrimary]
    by_cases h : (es.all fun e2 => decide (e.2.severity ≤ e2.2.severity)) = true
    · rw [if_pos h]
      simp [setPrimary]
    · rw [if_neg h]
      simp [ih]

lemma markPrimary_sev_mem (es : List DEntry) (b : DEntry) (hb : b ∈ es) :
    ∃ b2 ∈ markPrimary es, b2.2.severity = b.2.severity := by
  have hmem : (b.2.groupId, b.2.severity) ∈
      es.map (fun e => (e.2.groupId, e.2.severity)) := List.mem_map_of_mem _ hb
  rw [← markPrimary_gidsev] at hmem
  rcases List.mem_map.mp hmem with ⟨b2, hb2, hf⟩
  exact ⟨b2, hb2, congrArg Prod.snd hf⟩

lemma markPrimary_groupId_of (g : Nat) (es : List DEntry)
    (h : ∀ x ∈ es, x.2.groupId = g) :
    ∀ x ∈ markPrimary es, x.2.groupId = g := by
  intro x hx
  have hmem : (x.2.groupId, x.2.severity) ∈
      (markPrimary es).map (fun e => (e.2.groupId, e.2.severity)) :=
    List.mem_map_of_mem _ hx
  rw [markPrimary_gidsev] at hmem
  rcases List.mem_map.mp hmem with ⟨x0, hx0, hf⟩
  have := h x0 hx0
  have hg : x0.2.groupId = x.2.groupId := congrArg Prod.fst hf
  omega

lemma markPrimary_count (es : List DEntry) :
    es ≠ [] → (∀ e ∈ es, e.2.isPrimary = false) →
      ((markPrimary es).countP fun e => e.2.isPrimary) = 1 := by
  induction es with
  | nil =>
    intro h
    contradiction
  | cons e es ih =>
    intro _ hall
    rw [markPrimary]
    by_cases h : (es.all fun e2 => decide (e.2.severity ≤ e2.2.severity)) = true
    · rw [if_pos h]
      rw [List.countP_cons]
      have h0 : (es.countP fun x => x.2.isPrimary) = 0 := by
        rw [List.countP_eq_zero]
        intro a ha
        simp [hall a (by simp [ha])]
      simp [setPrimary, h0]
    · rw [if_neg h]
      rw [List.countP_cons]
      have he : e.2.isPrimary = false := hall e (by simp)
      cases es with
      | nil => simp at h
      | cons b bs =>
        have hc := ih (by simp) (fun x hx => hall x (by simp [hx]))
        simp [hc, he]

lemma markPrimary_min (es : List DEntry)
    (hall : ∀ e ∈ es, e.2.isPrimary = false) :
    ∀ e ∈ markPrimary es, e.2.isPrimary = true →
      ∀ e2 ∈ markPrimary es, e.2.severity ≤ e2.2.severity := by
  induction es with
  | nil =>
    intro e he
    simp [markPrimary] at he
  | cons a es ih =>
    intro e he hp e2 he2
    rw [markPrimary] at he he2
    by_cases h : (es.all fun x => decide (a.2.severity ≤ x.2.severity)) = true
    · rw [if_pos h] at he he2
      have hmins : ∀ x ∈ es, a.2.severity ≤ x.2.severity := by
        intro x hx
        have := List.all_eq_true.mp h x hx
        simpa using this
      rcases List.mem_cons.mp he with rfl | he
      · rcases List.mem_cons.mp he2 with rfl | he2
        · exact le_refl _
        · exact hmins e2 he2
      · exact absurd hp (by simp [hall e (by simp [he])])
    · rw [if_neg h] at he he2
      have hetail : e ∈ markPrimary es := by
        rcases List.mem_cons.mp he with heq | h2
        · exact absurd hp (by rw [heq]; simp [hall a (by simp)])
        · exact h2
      have hmin := ih (fun y hy => hall y (by simp [hy])) e hetail hp
      rcases List.mem_cons.mp he2 with heq2 | h2
      · have hw : ¬ ∀ x ∈ es, decide (a.2.severity ≤ x.2.severity) = true := by
          intro hcon
          exact h (List.all_eq_true.mpr hcon)
        have hx : ∃ x ∈ es, x.2.severity < a.2.severity := by
          by_contra hcon
          push_neg at hcon
          apply hw
          intro x hxx
          exact decide_eq_true (hcon x hxx)
        rcases hx with ⟨x, hxmem, hxlt⟩
        rcases markPrimary_sev_mem es x hxmem with ⟨x2, hx2, hsev⟩
        have h1 := hmin x2 hx2
        rw [heq2]
        omega
      · exact hmin e2 h2

lemma lookupAssoc_mem {K V : Type} [DecidableEq K] :
    ∀ (l : List (K × V)) (k : K) (v : V), lookupAssoc l k = some v → (k, v) ∈ l := by
  intro l k v
  induction l with
  | nil =>
    intro h
    simp [lookupAssoc] at h
  | cons kv rest ih =>
    rcases kv with ⟨k0, v0⟩
    intro h
    rw [lookupAssoc] at h
    by_cases hk : k0 = k
    · rw [if_pos hk] at h
      subst hk
      simp at h
      simp [h]
    · rw [if_neg hk] at h
      simp [ih h]

lemma mem_flattenGroups (gs : List (Nat × List DEntry)) (a : DEntry)
    (ha : a ∈ flattenGroups gs) : ∃ p ∈ gs, a ∈ markPrimary p.2 := by
  induction gs with
  | nil => simp [flattenGroups] at ha
  | cons g rest ih =>
    rw [flattenGroups] at ha
    rcases List.mem_append.mp ha with ha | ha
    · exact ⟨g, by simp, ha⟩
    · rcases ih ha with ⟨p, hp, hap⟩
      exact ⟨p, by simp [hp], hap⟩

lemma flattenGroups_filter (gs : List (Nat × List DEntry)) (hwf : groupsWF gs) (gid : Nat) :
    (flattenGroups gs).filter (fun e => decide (e.2.groupId = gid)) =
      (match lookupAssoc gs gid with
       | some es => markPrimary es
       | none => []) := by
  induction gs with
  | nil => rfl
  | cons ges rest ih =>
    rcases ges with ⟨g, es⟩
    rw [flattenGroups, List.filter_append]
    have hbucket : ∀ x ∈ markPrimary es, x.2.groupId = g :=
      markPrimary_groupId_of g es (fun x hx => ((hwf.2 (g, es) (by simp)).2 x hx).1)
    have hwfrest : groupsWF rest := by
      refine ⟨?_, fun p hp => hwf.2 p (by simp [hp])⟩
      have := hwf.1
      simp only [List.map_cons] at this
      exact this.of_cons
    by_cases hg : g = gid
    · subst hg
      rw [lookupAssoc, if_pos rfl]
      have h1 : (markPrimary es).filter (fun e => decide (e.2.groupId = g)) =
          markPrimary es :=
        List.filter_eq_self.mpr (fun a ha => by simp [hbucket a ha])
      have h2 : (flattenGroups rest).filter (fun e => decide (e.2.groupId = g)) = [] := by
        apply filter_eq_nil_of
        intro a ha
        rcases mem_flattenGroups rest a ha with ⟨p, hp, hap⟩
        have hpk : ∀ x ∈ p.2, x.2.groupId = p.1 :=
          fun x hx => ((hwfrest.2 p hp).2 x hx).1
        have hak : a.2.groupId = p.1 := markPrimary_groupId_of p.1 p.2 hpk a hap
        have hgne : p.1 ≠ g := by
          intro hcon
          have hkeys := hwf.1
          simp only [List.map_cons] at hkeys
          have : g ∉ rest.map Prod.fst := (List.nodup_cons.mp hkeys).1
          exact this (hcon ▸ List.mem_map_of_mem Prod.fst hp)
        simp [hak, hgne]
      rw [h1, h2, List.append_nil]
    · rw [lookupAssoc, if_neg hg]
      have h1 : (markPrimary es).filter (fun e => decide (e.2.groupId = gid)) = [] := by
        apply filter_eq_nil_of
        intro a ha
        simp [hbucket a ha, hg]
      rw [h1, List.nil_append]
      exact ih hwfrest

lemma runDiagnostics_primary (c : MContent) (ap : Option String) (srcs : List String)
    (ds : List LspDiagnostic) (gid : Nat)
    (hne : (runDiagnostics c ap srcs ds).filter
        (fun e => decide (e.2.groupId = gid)) ≠ []) :
    ((runDiagnostics c ap srcs ds).filter (fun e => decide (e.2.groupId = gid))).countP
        (fun e => e.2.isPrimary) = 1 ∧
      ∀ e ∈ (runDiagnostics c ap srcs ds).filter (fun e => decide (e.2.groupId = gid)),
        e.2.isPrimary = true →
        ∀ e2 ∈ (runDiagnostics c ap srcs ds).filter (fun e => decide (e.2.groupId = gid)),
          e.2.severity ≤ e2.2.severity := by
  have hwfg : groupsWF ((sortBy diagLe ds).foldl (processOne c ap srcs)
      (initialLoopState c)).groups :=
    foldl_wf c ap srcs (sortBy diagLe ds) (initialLoopState c)
      ⟨List.nodup_nil, by intro p hp; simp [initialLoopState] at hp⟩
  have hrun : runDiagnostics c ap srcs ds =
      flattenGroups ((sortBy diagLe ds).foldl (processOne c ap srcs)
        (initialLoopState c)).groups := rfl
  rw [hrun] at hne ⊢
  rw [flattenGroups_filter _ hwfg gid] at hne ⊢
  cases hlook : lookupAssoc ((sortBy diagLe ds).foldl (processOne c ap srcs)
      (initialLoopState c)).groups gid with
  | none =>
    rw [hlook] at hne
    exact absurd rfl hne
  | some es =>
    have hbmem := lookupAssoc_mem _ gid es hlook
    have hb := hwfg.2 (gid, es) hbmem
    exact ⟨markPrimary_count es hb.1 (fun x hx => (hb.2 x hx).2),
           markPrimary_min es (fun x hx => (hb.2 x hx).2)⟩

lemma update_ok_diagnostics (buf : MBuffer) (version : Option Nat)
    (diags : List LspDiagnostic) (buf1 : MBuffer) (op1 : List DEntry)
    (h : updateDiagnostics buf version diags = (buf1, Except.ok op1)) :
    ∃ c, buf1.diagnostics = runDiagnostics c buf.absPath buf.diskSources diags := by
  cases version with
  | none => exact ⟨buf.content, (congrArg (fun x => x.1.diagnostics) h).symm⟩
  | some v =>
    cases hls : buf.languageServer with
    | none =>
      rw [updateDiagnostics] at h
      simp only [hls] at h
      exact absurd (congrArg Prod.snd h) (by simp)
    | some ls =>
      cases hlook : lookupAssoc ls.pendingSnapshots v with
      | none =>
        rw [updateDiagnostics] at h
        simp only [hls, hlook] at h
        exact absurd (congrArg Prod.snd h) (by simp)
      | some c =>
        rw [updateDiagnostics] at h
        simp only [hls, hlook] at h
        exact ⟨c, (congrArg (fun x => x.1.diagnostics) h).symm⟩

/-- C4: after every successful update_diagnostics call, within each
stored diagnostic group (the entries sharing a group id) exactly one
diagnostic carries is_primary, and that diagnostic's severity value is
minimal in the group (severity 1 Error below 2 Warning below 3
Information below 4 Hint, so the minimum is the most severe). -/
theorem c4_one_primary_min_severity (buf : MBuffer) (version : Option Nat)
    (diags : List LspDiagnostic) (buf1 : MBuffer) (op1 : List DEntry)
    (h : updateDiagnostics buf version diags = (buf1, Except.ok op1)) (gid : Nat)
    (hne : buf1.diagnostics.filter (fun e => decide (e.2.groupId = gid)) ≠ []) :
    (buf1.diagnostics.filter (fun e => decide (e.2.groupId = gid))).countP
        (fun e => e.2.isPrimary) = 1 ∧
      ∀ e ∈ buf1.diagnostics.filter (fun e => decide (e.2.groupId = gid)),
        e.2.isPrimary = true →
        ∀ e2 ∈ buf1.diagnostics.filter (fun e => decide (e.2.groupId = gid)),
          e.2.severity ≤ e2.2.severity := by
  rcases update_ok_diagnostics buf version diags buf1 op1 h with ⟨c, hdiag⟩
  rw [hdiag] at hne ⊢
  exact runDiagnostics_primary c buf.absPath buf.diskSources diags gid hne

/-- C4 witness: two diagnostics sharing a related-information location
merge into group 0; the filter over that group holds exactly one primary
and it is the severity-1 (Error) entry. -/
theorem c4_witness :
    ((⟨⟨[10], []⟩, none, some "p", [],
        [((⟨0, 1⟩, ⟨0, 3⟩), ⟨2, "w", 0, false⟩),
         ((⟨0, 5⟩, ⟨0, 6⟩), ⟨1, "e", 0, true⟩)], 1⟩ : MBuffer).diagnostics.filter
          (fun e => decide (e.2.groupId = 0))).countP (fun e => e.2.isPrimary) = 1 ∧
      ∀ e ∈ (⟨⟨[10], []⟩, none, some "p", [],
          [((⟨0, 1⟩, ⟨0, 3⟩), ⟨2, "w", 0, false⟩),
           ((⟨0, 5⟩, ⟨0, 6⟩), ⟨1, "e", 0, true⟩)], 1⟩ : MBuffer).diagnostics.filter
            (fun e => decide (e.2.groupId = 0)),
        e.2.isPrimary = true →
        ∀ e2 ∈ (⟨⟨[10], []⟩, none, some "p", [],
            [((⟨0, 1⟩, ⟨0, 3⟩), ⟨2, "w", 0, false⟩),
             ((⟨0, 5⟩, ⟨0, 6⟩), ⟨1, "e", 0, true⟩)], 1⟩ : MBuffer).diagnostics.filter
              (fun e => decide (e.2.groupId = 0)),
          e.2.severity ≤ e2.2.severity :=
  c4_one_primary_min_severity
    ⟨⟨[10], []⟩, none, some "p", [], [], 0⟩ none
    [⟨⟨0, 1⟩, ⟨0, 3⟩, some 2, "w", some "s", some "c", [("p", ⟨0, 5⟩, ⟨0, 6⟩)]⟩,
     ⟨⟨0, 5⟩, ⟨0, 6⟩, some 1, "e", some "s", some "c", []⟩]
    ⟨⟨[10], []⟩, none, some "p", [],
      [((⟨0, 1⟩, ⟨0, 3⟩), ⟨2, "w", 0, false⟩),
       ((⟨0, 5⟩, ⟨0, 6⟩), ⟨1, "e", 0, true⟩)], 1⟩
    [((⟨0, 1⟩, ⟨0, 3⟩), ⟨2, "w", 0, false⟩),
     ((⟨0, 5⟩, ⟨0, 6⟩), ⟨1, "e", 0, true⟩)]
    (by rfl) 0 (by decide)
